import Mathlib

/-!
Shallow embedding of `libyul/backends/wasm/WasmCodeTransform.cpp`:
the Yul-to-WebAssembly code transform of the solidity repository.

The C++ visitor `WasmCodeTransform` is embedded as a family of explicitly
state-passing functions over a transform state `TState`.  `yulAssert`
failures (and C++ operations whose precondition is violated, such as
`std::stack::top` on an empty stack, `std::map::at` on a missing key or
`std::get` on the wrong variant) are modelled as `Except.error`.  The
mutually recursive visitor carries a fuel parameter so that every
definition is a computable structural recursion; the C++ recursion over a
finite tree corresponds to any sufficiently large fuel, and all theorems
quantify over the fuel.
-/

set_option maxHeartbeats 1000000

namespace WasmCodeTransform

/-- A builtin-function descriptor as reported by the dialect
(`BuiltinFunction` in `Dialect.h`): parameter type tags, return type tags,
and the optional per-argument literal-argument flags.  Type tags are kept
as strings exactly as in the source (`"i32"`, `"i64"`, `""`). -/
structure BuiltinFunction where
  name : String
  parameters : List String
  returns : List String
  literalArguments : Option (List Bool)
deriving Repr, DecidableEq

/-- The dialect lookup interface: `m_dialect.builtin(name)`. -/
abbrev Dialect := String → Option BuiltinFunction

/-- `wasm::FunctionImport`. -/
structure FunctionImport where
  module : String
  externalName : String
  internalName : String
  paramTypes : List String
  returnType : Option String
deriving Repr, DecidableEq

/-- The Yul expression AST (`FunctionCall`, `Identifier`, `Literal`).
Per the spec, big-integer literal value extraction is out of scope, so a
`Literal` node carries the already-resolved arbitrary-precision value
(`value`, the result of `valueOfLiteral`) together with its raw token
text (`raw`, the `value.str()` used by the literal-arguments path). -/
inductive YulExpr where
  | functionCall (name : String) (args : List YulExpr)
  | identifier (name : String)
  | literal (value : Nat) (raw : String)
deriving Repr

/-- The Yul statement AST.  A switch case is a pair of an optional literal
case value (`none` for the default case) and the case body; a nested
function definition carries its components inline. -/
inductive YulStatement where
  | variableDeclaration (names : List String) (value : Option YulExpr)
  | assignment (names : List String) (value : YulExpr)
  | expressionStatement (e : YulExpr)
  | ifStmt (cond : YulExpr) (body : List YulStatement)
  | switch (expr : YulExpr) (cases : List (Option (Nat × String) × List YulStatement))
  | forLoop (pre : List YulStatement) (cond : YulExpr)
      (post : List YulStatement) (body : List YulStatement)
  | breakStmt
  | continueStmt
  | leave
  | block (stmts : List YulStatement)
  | functionDefinition (name : String) (parameters : List String)
      (returnVariables : List String) (body : List YulStatement)
deriving Repr

/-- The wasm expression AST (`wasm::Expression` in `WasmAST.h`).  A block
or loop label is a string, with `""` standing for an absent label; the
`elseStatements` of an `If` are an `Option`, `none` standing for the null
`unique_ptr`. -/
inductive WasmExpr where
  | literal (value : Nat)
  | stringLiteral (s : String)
  | localVariable (name : String)
  | globalVariable (name : String)
  | builtinCall (name : String) (args : List WasmExpr)
  | functionCall (name : String) (args : List WasmExpr)
  | localAssignment (name : String) (value : WasmExpr)
  | globalAssignment (name : String) (value : WasmExpr)
  | block (label : String) (stmts : List WasmExpr)
  | loop (label : String) (stmts : List WasmExpr)
  | ifStmt (cond : WasmExpr) (thenStmts : List WasmExpr)
      (elseStmts : Option (List WasmExpr))
  | branch (label : String)
  | branchIf (label : String) (cond : WasmExpr)
deriving Repr

/-- `wasm::FunctionDefinition`: locals are kept as their names
(`wasm::VariableDeclaration` carries only a name). -/
structure WasmFunctionDefinition where
  name : String
  parameterNames : List String
  locals : List String
  returns : Bool
  body : List WasmExpr
deriving Repr

/-- `wasm::Module` (globals kept as their names, as in
`wasm::GlobalVariableDeclaration`). -/
structure WasmModule where
  imports : List FunctionImport
  globals : List String
  functions : List WasmFunctionDefinition
deriving Repr

/-- The mutable state of the C++ `WasmCodeTransform` object.

`functionsToImport` is declared in `WasmCodeTransform.h`, which is not
part of the sources at hand.  Modelled from the spec: "a mapping from
builtin name to its synthesized import descriptor (insertion order
preserved for output; a name is imported at most once)" — an
insertion-ordered association list keyed by the builtin name.

The name dispenser is likewise external ("new_name(seed) -> string,
guaranteed process-run-unique"); it is modelled by `nameCounter`, a
counter appended to the seed. -/
structure TState where
  localVariables : List String
  breakContinueLabelNames : List (String × String)
  functionBodyLabel : String
  functionsToImport : List (String × FunctionImport)
  globalVariables : List String
  nameCounter : Nat
deriving Repr, DecidableEq

/-- The state at the beginning of a transform run. -/
def initialState : TState :=
  { localVariables := []
    breakContinueLabelNames := []
    functionBodyLabel := ""
    functionsToImport := []
    globalVariables := []
    nameCounter := 0 }

/-- Modelled from the spec: the external name dispenser
(`m_nameDispenser.newName`), returning a run-unique name built from the
seed. -/
def newName (seed : String) (st : TState) : String × TState :=
  (seed ++ "_" ++ toString st.nameCounter, { st with nameCounter := st.nameCounter + 1 })

/-- `WasmCodeTransform::newLabel`. -/
def newLabel (st : TState) : String × TState :=
  newName "label_" st

/-- `WasmCodeTransform::allocateGlobals`: grow `m_globalVariables` with
fresh `global_`-seeded names until at least `amount` exist. -/
def allocateGlobals (amount : Nat) (st : TState) : TState :=
  if _h : st.globalVariables.length < amount then
    let p := newName "global_" st
    allocateGlobals amount
      { p.2 with globalVariables := p.2.globalVariables ++ [p.1] }
  else st
termination_by amount - st.globalVariables.length
decreasing_by simp [newName]; omega

/-- `WasmCodeTransform::generateMultiAssignment`: first value assigned
directly, the remaining names read back from the shared global slots. -/
def generateMultiAssignment (variableNames : List String) (firstValue : WasmExpr)
    (st : TState) : Except String (WasmExpr × TState) :=
  match variableNames with
  | [] => .error "generateMultiAssignment: empty variable list"
  | n :: rest =>
    let assignment := WasmExpr.localAssignment n firstValue
    if rest.isEmpty then .ok (assignment, st)
    else
      let st := allocateGlobals ((n :: rest).length - 1) st
      .ok (WasmExpr.block ""
        (assignment :: (List.range rest.length).map (fun i =>
          WasmExpr.localAssignment (rest.getD i "")
            (WasmExpr.globalVariable (st.globalVariables.getD i "")))), st)

/-- `WasmCodeTransform::injectTypeConversionIfNeeded(vector, parameterTypes)`:
wrap each argument of declared type `"i32"` in `i32.wrap_i64`; any
declared type other than `""`, `"i64"` or `"i32"` fails the assertion.
A parameter-type list shorter than the argument list corresponds to
`.at` throwing. -/
def injectTypeConversionIfNeededArgs :
    List WasmExpr → List String → Except String (List WasmExpr)
  | [], _ => .ok []
  | a :: rest, t :: ts =>
    if t = "i32" then
      match injectTypeConversionIfNeededArgs rest ts with
      | .ok tail => .ok (WasmExpr.builtinCall "i32.wrap_i64" [a] :: tail)
      | .error e => .error e
    else if t = "" ∨ t = "i64" then
      match injectTypeConversionIfNeededArgs rest ts with
      | .ok tail => .ok (a :: tail)
      | .error e => .error e
    else .error ("Unknown type " ++ t)
  | _ :: _, [] => .error "parameter type index out of range"

/-- `WasmCodeTransform::injectTypeConversionIfNeeded(wasm::FunctionCall)`:
look up the cached import descriptor for the call's name, wrap `"i32"`
arguments, require `"i64"` otherwise, and widen an `"i32"` return with
`i64.extend_i32_u` (a missing map entry corresponds to `map::at`
throwing). -/
def injectTypeConversionIfNeededCall (st : TState) (name : String)
    (args : List WasmExpr) : Except String WasmExpr :=
  match st.functionsToImport.lookup name with
  | none => .error "import descriptor not found"
  | some imp =>
    match convertArgs args imp.paramTypes with
    | .error e => .error e
    | .ok args =>
      match imp.returnType with
      | some rt =>
        if rt = "i64" then .ok (WasmExpr.functionCall name args)
        else if rt = "i32" then
          .ok (WasmExpr.builtinCall "i64.extend_i32_u" [WasmExpr.functionCall name args])
        else .error ("Invalid type " ++ rt)
      | none => .ok (WasmExpr.functionCall name args)
where
  /-- The argument loop of the import variant: `"i32"` wraps, anything
  other than `"i64"` fails the assertion (note: unlike the builtin
  variant, an empty type tag is not accepted here). -/
  convertArgs : List WasmExpr → List String → Except String (List WasmExpr)
    | [], _ => .ok []
    | a :: rest, t :: ts =>
      if t = "i32" then
        match convertArgs rest ts with
        | .ok tail => .ok (WasmExpr.builtinCall "i32.wrap_i64" [a] :: tail)
        | .error e => .error e
      else if t = "i64" then
        match convertArgs rest ts with
        | .ok tail => .ok (a :: tail)
        | .error e => .error e
      else .error ("Unknown type " ++ t)
    | _ :: _, [] => .error "parameter type index out of range"

/-- The import descriptor registered for an `eth.`-prefixed builtin on
its first call site (`wasm::FunctionImport imp{...}` at the call site):
module `"ethereum"`, external name with the first four characters
stripped, the builtin's parameter types, and its single return type if
any. -/
def ethImportDescriptor (b : BuiltinFunction) : FunctionImport :=
  { module := "ethereum"
    externalName := b.name.drop 4
    internalName := b.name
    paramTypes := b.parameters
    returnType := b.returns.head? }

mutual

/-- `std::visit(*this, expression)` (`visit` / `visitReturnByValue` on a
Yul expression): the expression cases of the visitor.  A literal value
above `2^64 - 1` fails the `yulAssert` in `operator()(Literal)`. -/
def visitExpr : Nat → Dialect → YulExpr → TState → Except String (WasmExpr × TState)
  | 0, _, _, _ => .error "recursion limit"
  | fuel + 1, d, e, st =>
    match e with
    | .identifier n => .ok (.localVariable n, st)
    | .literal v _ =>
      if v ≤ 18446744073709551615 then .ok (.literal v, st)
      else .error "Literal too large"
    | .functionCall name args => visitFunctionCall fuel d name args st

/-- `WasmCodeTransform::operator()(FunctionCall)`: the four-way split
between an `eth.`-prefixed imported builtin, a literal-arguments builtin,
an ordinary builtin, and a user-defined function call. -/
def visitFunctionCall : Nat → Dialect → String → List YulExpr → TState →
    Except String (WasmExpr × TState)
  | 0, _, _, _, _ => .error "recursion limit"
  | fuel + 1, d, name, args, st =>
    match d name with
    | some builtin =>
      if name.take 4 = "eth." then
        if builtin.returns.length ≤ 1 then
          -- Imported function, use regular call, but mark for import.
          let st :=
            if (st.functionsToImport.lookup builtin.name).isSome then st
            else { st with functionsToImport :=
                    st.functionsToImport ++ [(builtin.name, ethImportDescriptor builtin)] }
          match visitExprs fuel d args st with
          | .error e => .error e
          | .ok (wargs, st) =>
            match injectTypeConversionIfNeededCall st name wargs with
            | .error e => .error e
            | .ok w => .ok (w, st)
        else .error "imported builtin with more than one return value"
      else if (builtin.literalArguments.getD []).contains true then
        match visitLiteralArguments fuel d (builtin.literalArguments.getD []) args st with
        | .error e => .error e
        | .ok (literals, st) => .ok (.builtinCall name literals, st)
      else
        match visitExprs fuel d args st with
        | .error e => .error e
        | .ok (wargs, st) =>
          match injectTypeConversionIfNeededArgs wargs builtin.parameters with
          | .error e => .error e
          | .ok cargs =>
            match builtin.returns.head? with
            | none => .ok (.builtinCall name cargs, st)
            | some r =>
              if r = "" then .ok (.builtinCall name cargs, st)
              else if r = "i64" then .ok (.builtinCall name cargs, st)
              else if r = "i32" then
                .ok (.builtinCall "i64.extend_i32_u" [.builtinCall name cargs], st)
              else .error ("Invalid type " ++ r)
    | none =>
      match visitExprs fuel d args st with
      | .error e => .error e
      | .ok (wargs, st) => .ok (.functionCall name wargs, st)

/-- The argument loop of the literal-arguments path: a flagged argument
must be a `Literal` node (`std::get<Literal>` throws otherwise) and is
passed through as a raw-text `StringLiteral`; the rest are translated
normally.  An index beyond the flag list (unchecked `operator[]` in the
source, excluded by the dialect contract) reads as `false`. -/
def visitLiteralArguments : Nat → Dialect → List Bool → List YulExpr → TState →
    Except String (List WasmExpr × TState)
  | 0, _, _, _, _ => .error "recursion limit"
  | fuel + 1, d, flags, args, st =>
    match args with
    | [] => .ok ([], st)
    | a :: rest =>
      if flags.headD false then
        match a with
        | .literal _ raw =>
          match visitLiteralArguments fuel d flags.tail rest st with
          | .error e => .error e
          | .ok (tail, st) => .ok (.stringLiteral raw :: tail, st)
        | _ => .error "expected Literal argument"
      else
        match visitExpr fuel d a st with
        | .error e => .error e
        | .ok (w, st) =>
          match visitLiteralArguments fuel d flags.tail rest st with
          | .error e => .error e
          | .ok (tail, st) => .ok (w :: tail, st)

/-- `WasmCodeTransform::visit(vector<Expression>)`: left-to-right
translation of an argument list. -/
def visitExprs : Nat → Dialect → List YulExpr → TState →
    Except String (List WasmExpr × TState)
  | 0, _, _, _ => .error "recursion limit"
  | fuel + 1, d, es, st =>
    match es with
    | [] => .ok ([], st)
    | e :: rest =>
      match visitExpr fuel d e st with
      | .error err => .error err
      | .ok (w, st) =>
        match visitExprs fuel d rest st with
        | .error err => .error err
        | .ok (ws, st) => .ok (w :: ws, st)

/-- `std::visit(*this, statement)`: the statement cases of the visitor.
`Break`/`Continue` read the top of `m_breakContinueLabelNames`
(`std::stack::top` on an empty stack is modelled as a fatal error), and,
faithful to the source, `operator()(ForLoop)` pushes a label pair and
never pops it. -/
def visitStmt : Nat → Dialect → YulStatement → TState → Except String (WasmExpr × TState)
  | 0, _, _, _ => .error "recursion limit"
  | fuel + 1, d, s, st =>
    match s with
    | .variableDeclaration names value =>
      let st := { st with localVariables := st.localVariables ++ names }
      match value with
      | some v =>
        match visitExpr fuel d v st with
        | .error e => .error e
        | .ok (w, st) => generateMultiAssignment names w st
      | none => .ok (.builtinCall "nop" [], st)
    | .assignment names v =>
      match visitExpr fuel d v st with
      | .error e => .error e
      | .ok (w, st) => generateMultiAssignment names w st
    | .expressionStatement e => visitExpr fuel d e st
    | .ifStmt cond body =>
      match visitExpr fuel d cond st with
      | .error e => .error e
      | .ok (c, st) =>
        match visitStmts fuel d body st with
        | .error e => .error e
        | .ok (b, st) =>
          .ok (.ifStmt (.builtinCall "i64.ne" [c, .literal 0]) b none, st)
    | .switch expr cases =>
      let p := newName "condition" st
      let st := { p.2 with localVariables := p.2.localVariables ++ [p.1] }
      match visitExpr fuel d expr st with
      | .error e => .error e
      | .ok (w, st) =>
        match visitCases fuel d p.1 cases st with
        | .error e => .error e
        | .ok (chain, st) =>
          .ok (.block "" (.localAssignment p.1 w :: chain), st)
    | .forLoop pre cond post body =>
      let p1 := newLabel st
      let p2 := newLabel p1.2
      let st := { p2.2 with
        breakContinueLabelNames := (p1.1, p2.1) :: p2.2.breakContinueLabelNames }
      let p3 := newLabel st
      match visitStmts fuel d pre p3.2 with
      | .error e => .error e
      | .ok (preW, st) =>
        match visitExpr fuel d cond st with
        | .error e => .error e
        | .ok (condW, st) =>
          match visitStmts fuel d body st with
          | .error e => .error e
          | .ok (bodyW, st) =>
            match visitStmts fuel d post st with
            | .error e => .error e
            | .ok (postW, st) =>
              .ok (.block p1.1 [.loop p3.1
                (preW ++
                  .branchIf p1.1 (.builtinCall "i64.eqz" [condW]) ::
                  .block p2.1 bodyW ::
                  postW ++ [.branch p3.1])], st)
    | .breakStmt =>
      match st.breakContinueLabelNames with
      | [] => .error "break outside loop"
      | bc :: _ => .ok (.branch bc.1, st)
    | .continueStmt =>
      match st.breakContinueLabelNames with
      | [] => .error "continue outside loop"
      | bc :: _ => .ok (.branch bc.2, st)
    | .leave =>
      if st.functionBodyLabel = "" then .error "leave outside function body"
      else .ok (.branch st.functionBodyLabel, st)
    | .block stmts =>
      match visitStmts fuel d stmts st with
      | .error e => .error e
      | .ok (ws, st) => .ok (.block "" ws, st)
    | .functionDefinition _ _ _ _ => .error "Should not have visited here."

/-- `WasmCodeTransform::visit(vector<Statement>)`: left-to-right
translation of a statement list. -/
def visitStmts : Nat → Dialect → List YulStatement → TState →
    Except String (List WasmExpr × TState)
  | 0, _, _, _ => .error "recursion limit"
  | fuel + 1, d, ss, st =>
    match ss with
    | [] => .ok ([], st)
    | s :: rest =>
      match visitStmt fuel d s st with
      | .error e => .error e
      | .ok (w, st) =>
        match visitStmts fuel d rest st with
        | .error e => .error e
        | .ok (ws, st) => .ok (w :: ws, st)

/-- The case loop of `WasmCodeTransform::operator()(Switch)`: a
non-default case becomes an `If` testing `condition == value`, with an
else branch opened only when the case is not the last one and the
remaining cases nested inside it; a default case must be last, its body
appended into the currently open slot. -/
def visitCases : Nat → Dialect → String →
    List (Option (Nat × String) × List YulStatement) → TState →
    Except String (List WasmExpr × TState)
  | 0, _, _, _, _ => .error "recursion limit"
  | fuel + 1, d, condition, cases, st =>
    match cases with
    | [] => .ok ([], st)
    | (some v, body) :: rest =>
      -- visitReturnByValue on the case's Literal node.
      if v.1 ≤ 18446744073709551615 then
        let comparison :=
          WasmExpr.builtinCall "i64.eq" [.localVariable condition, .literal v.1]
        match visitStmts fuel d body st with
        | .error e => .error e
        | .ok (bodyW, st) =>
          if rest.isEmpty then .ok ([.ifStmt comparison bodyW none], st)
          else
            match visitCases fuel d condition rest st with
            | .error e => .error e
            | .ok (restW, st) => .ok ([.ifStmt comparison bodyW (some restW)], st)
      else .error "Literal too large"
    | (none, body) :: rest =>
      if rest.isEmpty then
        match visitStmts fuel d body st with
        | .error e => .error e
        | .ok (bodyW, st) => .ok (bodyW, st)
      else .error "Default case must be last."

end

/-- `WasmCodeTransform::translateFunction`: parameters pass through,
return variables are pre-declared as locals, the body is wrapped in a
block labeled with the fresh function-body label, synthesized locals are
drained into the function, and for at least one return variable the
epilogue stores the extra return variables into global slots and ends
with a load of the first one. -/
def translateFunction (fuel : Nat) (d : Dialect) (name : String)
    (parameters returnVariables : List String) (body : List YulStatement)
    (st : TState) : Except String (WasmFunctionDefinition × TState) :=
  if st.localVariables ≠ [] then .error "local variables not drained"
  else if st.functionBodyLabel ≠ "" then .error "function body label already set"
  else
    let p := newLabel st
    match visitStmts fuel d body { p.2 with functionBodyLabel := p.1 } with
    | .error e => .error e
    | .ok (bodyW, st) =>
      let fn : WasmFunctionDefinition :=
        { name := name
          parameterNames := parameters
          locals := returnVariables ++ st.localVariables
          returns := !returnVariables.isEmpty
          body := [.block p.1 bodyW] }
      let st := { st with localVariables := [], functionBodyLabel := "" }
      if returnVariables.isEmpty then .ok (fn, st)
      else
        -- First return variable is returned directly, the others are
        -- stored in globals.
        let st := allocateGlobals (returnVariables.length - 1) st
        .ok ({ fn with body := fn.body ++
            (List.range (returnVariables.length - 1)).map (fun i =>
              .globalAssignment (st.globalVariables.getD i "")
                (.localVariable (returnVariables.getD (i + 1) ""))) ++
            [.localVariable (returnVariables.headD "")] }, st)

/-- The top-level loop of `WasmCodeTransform::run`: every top-level
statement must be a function definition, translated in source order. -/
def runStatements (fuel : Nat) (d : Dialect) :
    List YulStatement → TState → Except String (List WasmFunctionDefinition × TState)
  | [], st => .ok ([], st)
  | s :: rest, st =>
    match s with
    | .functionDefinition name params rets body =>
      match translateFunction fuel d name params rets body st with
      | .error e => .error e
      | .ok (f, st) =>
        match runStatements fuel d rest st with
        | .error e => .error e
        | .ok (fs, st) => .ok (f :: fs, st)
    | _ => .error "Expected only function definitions at the highest level."

/-- `WasmCodeTransform::run`: translate all functions, then emit the
collected imports (in map order — insertion order in this model) and the
collected globals. -/
def run (fuel : Nat) (d : Dialect) (ast : List YulStatement) : Except String WasmModule :=
  match runStatements fuel d ast initialState with
  | .error e => .error e
  | .ok (fs, st) =>
    .ok { imports := st.functionsToImport.map Prod.snd
          globals := st.globalVariables
          functions := fs }

/-! ## Helper lemmas -/

theorem lookup_append_some {l t : List (String × FunctionImport)} {k : String}
    {v : FunctionImport} (h : l.lookup k = some v) : (l ++ t).lookup k = some v := by
  induction l with
  | nil => simp [List.lookup] at h
  | cons p rest ih =>
    simp only [List.lookup, List.cons_append] at h ⊢
    by_cases hk : k == p.1
    · simpa [hk] using h
    · simp only [hk] at h ⊢
      exact ih h

theorem lookup_append_right {l t : List (String × FunctionImport)} {k : String}
    (h : l.lookup k = none) : (l ++ t).lookup k = t.lookup k := by
  induction l with
  | nil => simp
  | cons p rest ih =>
    simp only [List.lookup, List.cons_append] at h ⊢
    by_cases hk : k == p.1
    · simp [hk] at h
    · simp only [hk] at h ⊢
      exact ih h

theorem lookup_none_not_mem {l : List (String × FunctionImport)} {k : String}
    (h : l.lookup k = none) : k ∉ l.map Prod.fst := by
  induction l with
  | nil => simp
  | cons p rest ih =>
    simp only [List.lookup] at h
    by_cases hk : k == p.1
    · simp [hk] at h
    · simp only [hk] at h
      simp only [List.map_cons, List.mem_cons, not_or]
      exact ⟨by simpa using hk, ih h⟩

/-- The whole-run invariant of the import map: keys are pairwise distinct
(a name is imported at most once) and each entry's internal name is its
key. -/
def ImportInv (st : TState) : Prop :=
  (st.functionsToImport.map Prod.fst).Nodup ∧
  ∀ p ∈ st.functionsToImport, p.2.internalName = p.1

/-- One visitor step only ever extends the module-wide state: the import
map and the global list grow by appending, and the import-map invariant
is preserved. -/
def Extends (st st2 : TState) : Prop :=
  (∃ t, st2.functionsToImport = st.functionsToImport ++ t) ∧
  (∃ t, st2.globalVariables = st.globalVariables ++ t) ∧
  (ImportInv st → ImportInv st2)

theorem Extends.refl (st : TState) : Extends st st :=
  ⟨⟨[], by simp⟩, ⟨[], by simp⟩, id⟩

theorem Extends.trans {s1 s2 s3 : TState} (h1 : Extends s1 s2) (h2 : Extends s2 s3) :
    Extends s1 s3 := by
  obtain ⟨⟨t1, ht1⟩, ⟨g1, hg1⟩, hi1⟩ := h1
  obtain ⟨⟨t2, ht2⟩, ⟨g2, hg2⟩, hi2⟩ := h2
  exact ⟨⟨t1 ++ t2, by simp [ht2, ht1]⟩, ⟨g1 ++ g2, by simp [hg2, hg1]⟩, hi2 ∘ hi1⟩

theorem Extends.of_eq {st st2 : TState}
    (hi : st2.functionsToImport = st.functionsToImport)
    (hg : st2.globalVariables = st.globalVariables) : Extends st st2 := by
  refine ⟨⟨[], by simp [hi]⟩, ⟨[], by simp [hg]⟩, ?_⟩
  intro h
  unfold ImportInv at h ⊢
  rw [hi]
  exact h

theorem Extends_register (st : TState) (b : BuiltinFunction)
    (h : st.functionsToImport.lookup b.name = none) :
    Extends st { st with functionsToImport :=
      st.functionsToImport ++ [(b.name, ethImportDescriptor b)] } := by
  refine ⟨⟨[(b.name, ethImportDescriptor b)], rfl⟩, ⟨[], by simp⟩, ?_⟩
  rintro ⟨hnd, hin⟩
  constructor
  · simp only [List.map_append, List.map_cons, List.map_nil, List.nodup_append]
    exact ⟨hnd, List.nodup_singleton _, by
      intro a ha hb
      simp only [List.mem_singleton] at hb
      subst hb
      exact lookup_none_not_mem h ha⟩
  · intro p hp
    rcases List.mem_append.mp hp with hp | hp
    · exact hin p hp
    · simp only [List.mem_singleton] at hp
      subst hp
      rfl

theorem allocateGlobals_step (amount : Nat) (st : TState)
    (h : st.globalVariables.length < amount) :
    allocateGlobals amount st = allocateGlobals amount
      { st with globalVariables := st.globalVariables ++ [(newName "global_" st).1],
                nameCounter := st.nameCounter + 1 } := by
  conv_lhs => rw [allocateGlobals]
  simp only [h, dite_true, newName]

theorem allocateGlobals_of_ge (amount : Nat) (st : TState)
    (h : ¬ st.globalVariables.length < amount) :
    allocateGlobals amount st = st := by
  rw [allocateGlobals]
  simp only [h, dite_false]

theorem allocateGlobals_spec (amount : Nat) (st : TState) :
    (∃ t, (allocateGlobals amount st).globalVariables = st.globalVariables ++ t) ∧
    (allocateGlobals amount st).functionsToImport = st.functionsToImport ∧
    (allocateGlobals amount st).localVariables = st.localVariables ∧
    (allocateGlobals amount st).breakContinueLabelNames = st.breakContinueLabelNames ∧
    (allocateGlobals amount st).functionBodyLabel = st.functionBodyLabel ∧
    amount ≤ (allocateGlobals amount st).globalVariables.length := by
  generalize hk : amount - st.globalVariables.length = k
  induction k generalizing st with
  | zero =>
    have hle : ¬ st.globalVariables.length < amount := by omega
    rw [allocateGlobals_of_ge amount st hle]
    exact ⟨⟨[], by simp⟩, rfl, rfl, rfl, rfl, by omega⟩
  | succ k ih =>
    by_cases hlt : st.globalVariables.length < amount
    · rw [allocateGlobals_step amount st hlt]
      have hrec := ih { st with
          globalVariables := st.globalVariables ++ [(newName "global_" st).1],
          nameCounter := st.nameCounter + 1 } (by simp; omega)
      obtain ⟨⟨t, hg⟩, h1, h2, h3, h4, h5⟩ := hrec
      refine ⟨⟨[(newName "global_" st).1] ++ t, by rw [hg]; simp⟩, h1, h2, h3, h4, by omega⟩
    · rw [allocateGlobals_of_ge amount st hlt]
      exact ⟨⟨[], by simp⟩, rfl, rfl, rfl, rfl, by omega⟩

theorem Extends_allocateGlobals (amount : Nat) (st : TState) :
    Extends st (allocateGlobals amount st) := by
  obtain ⟨hg, hi, -, -, -, -⟩ := allocateGlobals_spec amount st
  refine ⟨⟨[], by simp [hi]⟩, hg, ?_⟩
  intro h
  unfold ImportInv at h ⊢
  rw [hi]
  exact h

theorem generateMultiAssignment_extends {names : List String} {v : WasmExpr}
    {st : TState} {r : WasmExpr × TState}
    (h : generateMultiAssignment names v st = .ok r) : Extends st r.2 := by
  match names with
  | [] => simp [generateMultiAssignment] at h
  | n :: rest =>
    simp only [generateMultiAssignment] at h
    by_cases he : rest.isEmpty
    · simp only [he, if_true] at h
      cases h
      exact Extends.refl st
    · simp only [he, if_false] at h
      cases h
      exact Extends_allocateGlobals _ st

theorem visit_extends : ∀ fuel : Nat,
    (∀ d e st r, visitExpr fuel d e st = .ok r → Extends st r.2) ∧
    (∀ d nm as st r, visitFunctionCall fuel d nm as st = .ok r → Extends st r.2) ∧
    (∀ d fl as st r, visitLiteralArguments fuel d fl as st = .ok r → Extends st r.2) ∧
    (∀ d es st r, visitExprs fuel d es st = .ok r → Extends st r.2) ∧
    (∀ d s st r, visitStmt fuel d s st = .ok r → Extends st r.2) ∧
    (∀ d ss st r, visitStmts fuel d ss st = .ok r → Extends st r.2) ∧
    (∀ d c cs st r, visitCases fuel d c cs st = .ok r → Extends st r.2) := by
  intro fuel
  induction fuel with
  | zero =>
    refine ⟨?_, ?_, ?_, ?_, ?_, ?_, ?_⟩ <;> intro _ _ _ _ h <;>
      first
      | simp [visitExpr] at h
      | simp [visitFunctionCall] at h
      | simp [visitLiteralArguments] at h
      | simp [visitExprs] at h
      | simp [visitStmt] at h
      | simp [visitStmts] at h
      | simp [visitCases] at h
      | (intro h2; simp [visitFunctionCall, visitLiteralArguments, visitCases] at h2)
  | succ n ih =>
    obtain ⟨ihE, ihF, ihL, ihEs, ihS, ihSs, ihC⟩ := ih
    refine ⟨?_, ?_, ?_, ?_, ?_, ?_, ?_⟩
    · -- visitExpr
      intro d e st r h
      cases e with
      | identifier nm =>
        simp only [visitExpr] at h
        cases h
        exact Extends.refl st
      | literal v raw =>
        simp only [visitExpr] at h
        split at h
        · cases h; exact Extends.refl st
        · cases h
      | functionCall nm as => exact ihF d nm as st r h
    · -- visitFunctionCall
      intro d nm as st r h
      simp only [visitFunctionCall] at h
      cases hd : d nm with
      | none =>
        simp only [hd] at h
        split at h
        · cases h
        · next ws st2 heq =>
          cases h
          exact ihEs d as st _ heq
      | some b =>
        simp only [hd] at h
        by_cases hp : nm.take 4 = "eth."
        · simp only [hp, if_true] at h
          split at h
          · next hret =>
            have hreg : Extends st (if (st.functionsToImport.lookup b.name).isSome then st
                else { st with functionsToImport :=
                  st.functionsToImport ++ [(b.name, ethImportDescriptor b)] }) := by
              split
              · exact Extends.refl st
              · next hns =>
                exact Extends_register st b (Option.not_isSome_iff_eq_none.mp hns)
            split at h
            · cases h
            · next ws st2 heq =>
              split at h
              · cases h
              · next w heq2 =>
                cases h
                exact hreg.trans (ihEs d as _ _ heq)
          · cases h
        · simp only [hp, if_false] at h
          split at h
          · -- literal-arguments path
            split at h
            · cases h
            · next ls st2 heq =>
              cases h
              exact ihL d _ as st _ heq
          · -- ordinary builtin path
            split at h
            · cases h
            · next ws st2 heq =>
              split at h
              · cases h
              · next cargs heq2 =>
                split at h
                · cases h
                  exact ihEs d as st _ heq
                · next rt hrt =>
                  split at h
                  · cases h
                    exact ihEs d as st _ heq
                  · split at h
                    · cases h
                      exact ihEs d as st _ heq
                    · split at h
                      · cases h
                        exact ihEs d as st _ heq
                      · cases h
    · -- visitLiteralArguments
      intro d fl as st r h
      cases as with
      | nil =>
        simp only [visitLiteralArguments] at h
        cases h
        exact Extends.refl st
      | cons a rest =>
        simp only [visitLiteralArguments] at h
        split at h
        · -- flagged
          cases a with
          | literal v raw =>
            simp only at h
            split at h
            · cases h
            · next tail st2 heq =>
              cases h
              exact ihL d fl.tail rest st (tail, st2) heq
          | functionCall nm args =>
            exact Except.noConfusion h
          | identifier nm =>
            exact Except.noConfusion h
        · -- unflagged
          split at h
          · cases h
          · next w st2 heq =>
            split at h
            · cases h
            · next tail st3 heq2 =>
              cases h
              exact (ihE d a st (w, st2) heq).trans (ihL d fl.tail rest st2 (tail, st3) heq2)
    · -- visitExprs
      intro d es st r h
      cases es with
      | nil =>
        simp only [visitExprs] at h
        cases h
        exact Extends.refl st
      | cons e rest =>
        simp only [visitExprs] at h
        split at h
        · cases h
        · next w st2 heq =>
          split at h
          · cases h
          · next ws st3 heq2 =>
            cases h
            exact (ihE d e st (w, st2) heq).trans (ihEs d rest st2 (ws, st3) heq2)
    · -- visitStmt
      intro d s st r h
      cases s with
      | variableDeclaration names value =>
        simp only [visitStmt] at h
        have h0 : Extends st { st with localVariables := st.localVariables ++ names } :=
          Extends.of_eq rfl rfl
        cases value with
        | none =>
          simp only at h
          cases h
          exact h0
        | some v =>
          simp only at h
          split at h
          · cases h
          · next w st2 heq =>
            exact (h0.trans (ihE d v _ _ heq)).trans (generateMultiAssignment_extends h)
      | assignment names v =>
        simp only [visitStmt] at h
        split at h
        · cases h
        · next w st2 heq =>
          exact (ihE d v st _ heq).trans (generateMultiAssignment_extends h)
      | expressionStatement e =>
        simp only [visitStmt] at h
        exact ihE d e st r h
      | ifStmt cond body =>
        simp only [visitStmt] at h
        split at h
        · cases h
        · next c st2 heq =>
          split at h
          · cases h
          · next b st3 heq2 =>
            cases h
            exact (ihE d cond st _ heq).trans (ihSs d body st2 _ heq2)
      | switch expr cases_ =>
        simp only [visitStmt] at h
        split at h
        · cases h
        · next w st2 heq =>
          split at h
          · cases h
          · next chain st3 heq2 =>
            cases h
            have h0 : Extends st { (newName "condition" st).2 with
                localVariables := (newName "condition" st).2.localVariables ++
                  [(newName "condition" st).1] } :=
              Extends.of_eq rfl rfl
            exact (h0.trans (ihE d expr _ _ heq)).trans (ihC d _ cases_ st2 _ heq2)
      | forLoop pre cond post body =>
        simp only [visitStmt] at h
        split at h
        · cases h
        · next preW st2 heq =>
          split at h
          · cases h
          · next condW st3 heq2 =>
            split at h
            · cases h
            · next bodyW st4 heq3 =>
              split at h
              · cases h
              · next postW st5 heq4 =>
                cases h
                have h0 : Extends st (newLabel (newLabel st).2).2 := Extends.of_eq rfl rfl
                have h1 : Extends (newLabel (newLabel st).2).2
                    (newLabel { (newLabel (newLabel st).2).2 with
                      breakContinueLabelNames := ((newLabel st).1, (newLabel (newLabel st).2).1) ::
                        (newLabel (newLabel st).2).2.breakContinueLabelNames }).2 :=
                  Extends.of_eq rfl rfl
                exact (((h0.trans h1).trans (ihSs d pre _ _ heq)).trans
                  (ihE d cond st2 _ heq2)).trans
                  ((ihSs d body st3 _ heq3).trans (ihSs d post st4 _ heq4))
      | breakStmt =>
        simp only [visitStmt] at h
        split at h
        · cases h
        · cases h
          exact Extends.refl st
      | continueStmt =>
        simp only [visitStmt] at h
        split at h
        · cases h
        · cases h
          exact Extends.refl st
      | leave =>
        simp only [visitStmt] at h
        split at h
        · cases h
        · cases h
          exact Extends.refl st
      | block stmts =>
        simp only [visitStmt] at h
        split at h
        · cases h
        · next ws st2 heq =>
          cases h
          exact ihSs d stmts st _ heq
      | functionDefinition nm ps rs bd =>
        simp only [visitStmt] at h
        exact Except.noConfusion h
    · -- visitStmts
      intro d ss st r h
      cases ss with
      | nil =>
        simp only [visitStmts] at h
        cases h
        exact Extends.refl st
      | cons s rest =>
        simp only [visitStmts] at h
        split at h
        · cases h
        · next w st2 heq =>
          split at h
          · cases h
          · next ws st3 heq2 =>
            cases h
            exact (ihS d s st (w, st2) heq).trans (ihSs d rest st2 (ws, st3) heq2)
    · -- visitCases
      intro d c cs st r h
      cases cs with
      | nil =>
        simp only [visitCases] at h
        cases h
        exact Extends.refl st
      | cons hd rest =>
        obtain ⟨val, body⟩ := hd
        cases val with
        | some v =>
          simp only [visitCases] at h
          split at h
          · split at h
            · cases h
            · next bodyW st2 heq =>
              split at h
              · cases h
                exact ihSs d body st (bodyW, st2) heq
              · split at h
                · cases h
                · next restW st3 heq2 =>
                  cases h
                  exact (ihSs d body st (bodyW, st2) heq).trans (ihC d c rest st2 (restW, st3) heq2)
          · cases h
        | none =>
          simp only [visitCases] at h
          split at h
          · split at h
            · cases h
            · next bodyW st2 heq =>
              cases h
              exact ihSs d body st (bodyW, st2) heq
          · cases h

theorem translateFunction_extends {fuel : Nat} {d : Dialect} {nm : String}
    {ps rs : List String} {bd : List YulStatement} {st : TState}
    {r : WasmFunctionDefinition × TState}
    (h : translateFunction fuel d nm ps rs bd st = .ok r) : Extends st r.2 := by
  simp only [translateFunction] at h
  split at h
  · cases h
  · split at h
    · cases h
    · split at h
      · cases h
      · next bodyW st2 heq =>
        have h1 : Extends st st2 :=
          (@Extends.of_eq st { (newLabel st).2 with
              functionBodyLabel := (newLabel st).1 } rfl rfl).trans
            ((visit_extends fuel).2.2.2.2.2.1 d bd _ (bodyW, st2) heq)
        have h2 : Extends st2 { st2 with localVariables := [], functionBodyLabel := "" } :=
          Extends.of_eq rfl rfl
        split at h
        · cases h
          exact h1.trans h2
        · cases h
          exact (h1.trans h2).trans (Extends_allocateGlobals _ _)

theorem runStatements_extends {fuel : Nat} {d : Dialect} :
    ∀ {ss : List YulStatement} {st : TState} {r : List WasmFunctionDefinition × TState},
    runStatements fuel d ss st = .ok r → Extends st r.2 := by
  intro ss
  induction ss with
  | nil =>
    intro st r h
    simp only [runStatements] at h
    cases h
    exact Extends.refl _
  | cons s rest ih =>
    intro st r h
    simp only [runStatements] at h
    split at h
    · next nm ps rs bd =>
      split at h
      · cases h
      · next f st2 heq =>
        split at h
        · cases h
        · next fs st3 heq2 =>
          cases h
          exact (translateFunction_extends heq).trans (ih (r := (fs, st3)) heq2)
    · cases h

theorem importInv_initial : ImportInv initialState := by
  constructor <;> simp [initialState, ImportInv]

/-- The dialect with no builtin functions, used in concrete instances. -/
def emptyDialect : Dialect := fun _ => none

/-- A concrete imported builtin used in witness instances. -/
def getAddressBuiltin : BuiltinFunction :=
  { name := "eth.getAddress", parameters := ["i32"], returns := [],
    literalArguments := none }

/-- A concrete literal-argument builtin used in witness instances. -/
def dataoffsetBuiltin : BuiltinFunction :=
  { name := "dataoffset", parameters := [""], returns := ["i64"],
    literalArguments := some [true] }

/-- A concrete ordinary builtin used in witness instances. -/
def addBuiltin : BuiltinFunction :=
  { name := "i64.add", parameters := ["i64", "i64"], returns := ["i64"],
    literalArguments := none }

/-- A small dialect with one imported builtin, one literal-argument
builtin and one ordinary builtin, used in concrete instances. -/
def sampleDialect : Dialect := fun nm =>
  if nm = "eth.getAddress" then some getAddressBuiltin
  else if nm = "dataoffset" then some dataoffsetBuiltin
  else if nm = "i64.add" then some addBuiltin
  else none

/-! ## Claim theorems -/

/-- C2: for one target name the multi-value assignment helper emits a
single direct local assignment; for k > 1 names it ensures at least k-1
module-wide globals and emits a block assigning the value to the first
name and each extra name i (1-based) from global slot i-1; and
`allocateGlobals` only ever appends, so the global count is monotonically
non-decreasing and is at least k-1 after the call. -/
theorem generateMultiAssignment_correct (names : List String) (v : WasmExpr) (st : TState) :
    (∀ nm, names = [nm] →
      generateMultiAssignment names v st = .ok (.localAssignment nm v, st)) ∧
    (2 ≤ names.length → ∃ st2,
      generateMultiAssignment names v st = .ok (.block ""
        (.localAssignment (names.headD "") v ::
          (List.range (names.length - 1)).map (fun i =>
            .localAssignment (names.getD (i + 1) "")
              (.globalVariable (st2.globalVariables.getD i "")))), st2) ∧
      (∃ t, st2.globalVariables = st.globalVariables ++ t) ∧
      names.length - 1 ≤ st2.globalVariables.length) ∧
    (∀ amount s, (∃ t, (allocateGlobals amount s).globalVariables = s.globalVariables ++ t) ∧
      s.globalVariables.length ≤ (allocateGlobals amount s).globalVariables.length) := by
  refine ⟨?_, ?_, ?_⟩
  · rintro nm rfl
    simp [generateMultiAssignment]
  · intro hlen
    match names with
    | n :: rest =>
      have hre : rest.isEmpty = false := by
        cases rest
        · simp at hlen
        · simp
      refine ⟨allocateGlobals ((n :: rest).length - 1) st, ?_, ?_, ?_⟩
      · simp only [generateMultiAssignment, hre, Bool.false_eq_true, if_false,
          List.headD_cons, List.length_cons, Nat.add_sub_cancel, List.getD_cons_succ]
      · exact (allocateGlobals_spec _ st).1
      · exact (allocateGlobals_spec _ st).2.2.2.2.2
  · intro amount s
    obtain ⟨hg, -, -, -, -, hlen⟩ := allocateGlobals_spec amount s
    refine ⟨hg, ?_⟩
    obtain ⟨t, ht⟩ := hg
    simp [ht]

/-- C2 witness: the helper applied to the concrete name list
`["a", "b"]`. -/
theorem generateMultiAssignment_correct_witness :
    ∃ st2, generateMultiAssignment ["a", "b"] (.literal 7) initialState = .ok (.block ""
        (.localAssignment ((["a", "b"] : List String).headD "") (.literal 7) ::
          (List.range ((["a", "b"] : List String).length - 1)).map (fun i =>
            .localAssignment ((["a", "b"] : List String).getD (i + 1) "")
              (.globalVariable (st2.globalVariables.getD i "")))), st2) ∧
      (∃ t, st2.globalVariables = initialState.globalVariables ++ t) ∧
      (["a", "b"] : List String).length - 1 ≤ st2.globalVariables.length :=
  (generateMultiAssignment_correct ["a", "b"] (.literal 7) initialState).2.1 (by decide)

/-- C5: the code pushes a (break-label, continue-label) pair on loop
entry but, contrary to the claim, never pops it: after translating a
for-loop from the empty initial stack, the pair is still on the stack
instead of the stack being restored to empty. -/
theorem forLoop_stack_not_restored :
    ∃ w st2,
      visitStmt 10 emptyDialect (.forLoop [] (.literal 1 "1") [] []) initialState
        = .ok (w, st2) ∧
      initialState.breakContinueLabelNames = [] ∧
      st2.breakContinueLabelNames = [("label__0", "label__1")] := by
  exact ⟨_, _, rfl, rfl, rfl⟩

/-- C9: visiting Break or Continue after a for-loop has ended — when no
loop is active — does not halt the transform: because the loop's label
pair was never popped, the code silently emits a branch to the loop's
stale break (resp. continue) label.  Break/Continue do read the top of
the stack, and an empty stack is fatal, but "no loop active" does not
imply an empty stack. -/
theorem break_outside_loop_not_fatal :
    ∃ w st1,
      visitStmt 10 emptyDialect (.forLoop [] (.literal 1 "1") [] []) initialState
        = .ok (w, st1) ∧
      visitStmt 10 emptyDialect .breakStmt st1 = .ok (.branch "label__0", st1) ∧
      visitStmt 10 emptyDialect .continueStmt st1 = .ok (.branch "label__1", st1) ∧
      st1.breakContinueLabelNames = [("label__0", "label__1")] := by
  exact ⟨_, _, rfl, rfl, rfl, rfl⟩

/-- C1: a translated function with N ≥ 1 return variables has its
returns flag set, at least N-1 module-wide globals exist afterwards, and
its body ends with a GlobalAssignment of each return variable after the
first into global slot i-1 followed by a trailing load of the first
return variable; with zero return variables the flag is false and no
epilogue is appended. -/
theorem translateFunction_returns_epilogue (fuel : Nat) (d : Dialect) (nm : String)
    (params rets : List String) (body : List YulStatement) (st : TState)
    (g : WasmFunctionDefinition) (st2 : TState)
    (h : translateFunction fuel d nm params rets body st = .ok (g, st2)) :
    g.returns = !rets.isEmpty ∧
    rets.length - 1 ≤ st2.globalVariables.length ∧
    (∀ r0 rs, rets = r0 :: rs →
      ∃ blk, g.body = blk ::
        ((List.range rs.length).map (fun i =>
          WasmExpr.globalAssignment (st2.globalVariables.getD i "")
            (WasmExpr.localVariable (rs.getD i ""))) ++
         [WasmExpr.localVariable r0])) ∧
    (rets = [] → ∃ blk, g.body = [blk]) := by
  simp only [translateFunction] at h
  split at h
  · cases h
  · split at h
    · cases h
    · split at h
      · cases h
      · next bodyW stA heq =>
        split at h
        · next hemp =>
          cases h
          have hnil : rets = [] := List.isEmpty_iff.mp hemp
          subst hnil
          exact ⟨rfl, by simp, by rintro r0 rs ⟨⟩, fun _ => ⟨_, rfl⟩⟩
        · next hemp =>
          cases h
          have hne : rets ≠ [] := fun hn => hemp (by simp [hn])
          refine ⟨rfl, (allocateGlobals_spec _ _).2.2.2.2.2, ?_, fun hn => absurd hn hne⟩
          rintro r0 rs rfl
          refine ⟨WasmExpr.block (newLabel st).1 bodyW, ?_⟩
          simp only [List.length_cons, Nat.add_sub_cancel, List.getD_cons_succ,
            List.cons_append, List.nil_append, List.append_assoc, List.headD_cons]

/-- C1 witness: the concrete function `function f(a) -> x, y {}`. -/
theorem translateFunction_returns_epilogue_witness :
    ∃ g st2, translateFunction 5 emptyDialect "f" ["a"] ["x", "y"] [] initialState
        = .ok (g, st2) ∧
      (g.returns = !(["x", "y"] : List String).isEmpty ∧
       (["x", "y"] : List String).length - 1 ≤ st2.globalVariables.length ∧
       (∀ r0 rs, (["x", "y"] : List String) = r0 :: rs →
         ∃ blk, g.body = blk ::
           ((List.range rs.length).map (fun i =>
             WasmExpr.globalAssignment (st2.globalVariables.getD i "")
               (WasmExpr.localVariable (rs.getD i ""))) ++
            [WasmExpr.localVariable r0])) ∧
       ((["x", "y"] : List String) = [] → ∃ blk, g.body = [blk])) := by
  obtain ⟨g, st2, h⟩ : ∃ g st2,
      translateFunction 5 emptyDialect "f" ["a"] ["x", "y"] [] initialState = .ok (g, st2) :=
    ⟨_, _, rfl⟩
  exact ⟨g, st2, h,
    translateFunction_returns_epilogue 5 emptyDialect "f" ["a"] ["x", "y"] [] initialState g st2 h⟩

/-- C6: a for-loop translates to an outer Block labeled with a fresh
break label, containing a Loop labeled with a third fresh label whose
statements are, in order, the translated pre-block, a conditional branch
to the break label guarded by an equals-zero test of the condition, the
body wrapped in a Block labeled with the fresh continue label, the
translated post-block, and an unconditional branch back to the Loop's
label. -/
theorem forLoop_translation (fuel : Nat) (d : Dialect) (pre : List YulStatement)
    (cond : YulExpr) (post body : List YulStatement) (st : TState)
    (w : WasmExpr) (st2 : TState)
    (h : visitStmt (fuel + 1) d (.forLoop pre cond post body) st = .ok (w, st2)) :
    ∃ brk stA cont stB lbl stC preW stD condW stE bodyW stF postW,
      newLabel st = (brk, stA) ∧
      newLabel stA = (cont, stB) ∧
      newLabel { stB with breakContinueLabelNames :=
        (brk, cont) :: stB.breakContinueLabelNames } = (lbl, stC) ∧
      visitStmts fuel d pre stC = .ok (preW, stD) ∧
      visitExpr fuel d cond stD = .ok (condW, stE) ∧
      visitStmts fuel d body stE = .ok (bodyW, stF) ∧
      visitStmts fuel d post stF = .ok (postW, st2) ∧
      w = .block brk [.loop lbl
        (preW ++
          .branchIf brk (.builtinCall "i64.eqz" [condW]) ::
          .block cont bodyW ::
          postW ++ [.branch lbl])] := by
  simp only [visitStmt] at h
  split at h
  · cases h
  · next preW stD heq =>
    split at h
    · cases h
    · next condW stE heq2 =>
      split at h
      · cases h
      · next bodyW stF heq3 =>
        split at h
        · cases h
        · next postW stG heq4 =>
          cases h
          exact ⟨_, _, _, _, _, _, _, _, _, _, _, _, _,
            rfl, rfl, rfl, heq, heq2, heq3, heq4, rfl⟩

/-- C6 witness: the concrete loop `for { } 1 { } { }`. -/
theorem forLoop_translation_witness :
    ∃ w st2 brk stA cont stB lbl stC preW stD condW stE bodyW stF postW,
      visitStmt 6 emptyDialect (.forLoop [] (.literal 1 "1") [] []) initialState
        = .ok (w, st2) ∧
      newLabel initialState = (brk, stA) ∧
      newLabel stA = (cont, stB) ∧
      newLabel { stB with breakContinueLabelNames :=
        (brk, cont) :: stB.breakContinueLabelNames } = (lbl, stC) ∧
      visitStmts 5 emptyDialect [] stC = .ok (preW, stD) ∧
      visitExpr 5 emptyDialect (.literal 1 "1") stD = .ok (condW, stE) ∧
      visitStmts 5 emptyDialect [] stE = .ok (bodyW, stF) ∧
      visitStmts 5 emptyDialect [] stF = .ok (postW, st2) ∧
      w = .block brk [.loop lbl
        (preW ++
          .branchIf brk (.builtinCall "i64.eqz" [condW]) ::
          .block cont bodyW ::
          postW ++ [.branch lbl])] := by
  obtain ⟨w, st2, h⟩ : ∃ w st2,
      visitStmt 6 emptyDialect (.forLoop [] (.literal 1 "1") [] []) initialState
        = .ok (w, st2) := ⟨_, _, rfl⟩
  obtain ⟨brk, stA, cont, stB, lbl, stC, preW, stD, condW, stE, bodyW, stF, postW, hrest⟩ :=
    forLoop_translation 5 emptyDialect [] (.literal 1 "1") [] [] initialState w st2 h
  exact ⟨w, st2, brk, stA, cont, stB, lbl, stC, preW, stD, condW, stE, bodyW, stF, postW,
    h, hrest.1, hrest.2.1, hrest.2.2.1, hrest.2.2.2.1, hrest.2.2.2.2.1,
    hrest.2.2.2.2.2.1, hrest.2.2.2.2.2.2.1, hrest.2.2.2.2.2.2.2⟩

/-- C7: a switch translates to a Block that first assigns the scrutinee
to a fresh local seeded "condition" (also registered as a synthesized
local), followed by a right-leaning if/else-if chain; a non-default case
tests equality against the case value with the body as then-branch, an
else branch is opened only when the case is not the last one with the
remaining cases nested inside it, a default case is fatal unless last,
and a last default's body is appended directly into the open slot. -/
theorem switch_translation (fuel : Nat) (d : Dialect) :
    (∀ expr cs st w st2, visitStmt (fuel + 1) d (.switch expr cs) st = .ok (w, st2) →
      ∃ cname stA condW stB chain,
        newName "condition" st = (cname, stA) ∧
        visitExpr fuel d expr { stA with localVariables := stA.localVariables ++ [cname] }
          = .ok (condW, stB) ∧
        visitCases fuel d cname cs stB = .ok (chain, st2) ∧
        w = .block "" (.localAssignment cname condW :: chain)) ∧
    (∀ c v raw body rest st bodyW st2, rest ≠ [] →
      v ≤ 18446744073709551615 →
      visitStmts fuel d body st = .ok (bodyW, st2) →
      visitCases (fuel + 1) d c ((some (v, raw), body) :: rest) st =
        (match visitCases fuel d c rest st2 with
         | .error e => .error e
         | .ok (restW, st3) =>
           .ok ([.ifStmt (.builtinCall "i64.eq" [.localVariable c, .literal v])
             bodyW (some restW)], st3))) ∧
    (∀ c v raw body st bodyW st2,
      v ≤ 18446744073709551615 →
      visitStmts fuel d body st = .ok (bodyW, st2) →
      visitCases (fuel + 1) d c [(some (v, raw), body)] st =
        .ok ([.ifStmt (.builtinCall "i64.eq" [.localVariable c, .literal v])
          bodyW none], st2)) ∧
    (∀ c body rest st, rest ≠ [] →
      ∃ msg, visitCases (fuel + 1) d c ((none, body) :: rest) st = .error msg) ∧
    (∀ c body st bodyW st2,
      visitStmts fuel d body st = .ok (bodyW, st2) →
      visitCases (fuel + 1) d c [(none, body)] st = .ok (bodyW, st2)) := by
  refine ⟨?_, ?_, ?_, ?_, ?_⟩
  · intro expr cs st w st2 h
    simp only [visitStmt] at h
    split at h
    · cases h
    · next condW stB heq =>
      split at h
      · cases h
      · next chain stC heq2 =>
        cases h
        exact ⟨_, _, _, _, _, rfl, heq, heq2, rfl⟩
  · intro c v raw body rest st bodyW st2 hne hv hb
    have hre : rest.isEmpty = false := by
      cases rest
      · exact absurd rfl hne
      · rfl
    simp only [visitCases, hv, if_true, hb, hre, Bool.false_eq_true, if_false]
  · intro c v raw body st bodyW st2 hv hb
    simp only [visitCases, hv, if_true, hb, List.isEmpty_nil, if_true]
  · intro c body rest st hne
    have hre : rest.isEmpty = false := by
      cases rest
      · exact absurd rfl hne
      · rfl
    have hh : visitCases (fuel + 1) d c ((none, body) :: rest) st
        = .error "Default case must be last." := by
      simp only [visitCases, hre, Bool.false_eq_true, if_false]
    exact ⟨_, hh⟩
  · intro c body st bodyW st2 hb
    simp only [visitCases, List.isEmpty_nil, if_true, hb]

/-- C7 witness: the concrete switch
`switch 1 case 1 { } case 2 { } default { }`. -/
theorem switch_translation_witness :
    (∃ w st2 cname stA condW stB chain,
      visitStmt 6 emptyDialect
        (.switch (.literal 1 "1")
          [(some (1, "1"), []), (some (2, "2"), []), (none, [])]) initialState
        = .ok (w, st2) ∧
      newName "condition" initialState = (cname, stA) ∧
      visitExpr 5 emptyDialect (.literal 1 "1")
        { stA with localVariables := stA.localVariables ++ [cname] } = .ok (condW, stB) ∧
      visitCases 5 emptyDialect cname
        [(some (1, "1"), []), (some (2, "2"), []), (none, [])] stB = .ok (chain, st2) ∧
      w = .block "" (.localAssignment cname condW :: chain)) ∧
    (∃ msg, visitCases 6 emptyDialect "c" [(none, []), (some (1, "1"), [])] initialState
      = .error msg) := by
  constructor
  · obtain ⟨w, st2, h⟩ : ∃ w st2,
        visitStmt 6 emptyDialect
          (.switch (.literal 1 "1")
            [(some (1, "1"), []), (some (2, "2"), []), (none, [])]) initialState
          = .ok (w, st2) := ⟨_, _, rfl⟩
    obtain ⟨cname, stA, condW, stB, chain, h1, h2, h3, h4⟩ :=
      (switch_translation 5 emptyDialect).1 (.literal 1 "1")
        [(some (1, "1"), []), (some (2, "2"), []), (none, [])] initialState w st2 h
    exact ⟨w, st2, cname, stA, condW, stB, chain, h, h1, h2, h3, h4⟩
  · exact (switch_translation 5 emptyDialect).2.2.2.1 "c" [] [(some (1, "1"), [])]
      initialState (by simp)

/-- C3: for an `eth.`-prefixed builtin, the first call site registers
exactly one import descriptor (module "ethereum", external name with the
prefix stripped, the builtin's parameter types, its single return type
if any), every subsequent call reuses the cached entry, the final module
has exactly one import entry per name, and more than one declared return
value is a fatal invariant failure. -/
theorem eth_import_registration (fuel : Nat) (d : Dialect) (nm : String)
    (args : List YulExpr) (st : TState) (b : BuiltinFunction)
    (hb : d nm = some b) (hp : nm.take 4 = "eth.") :
    (1 < b.returns.length → ∃ msg, visitFunctionCall (fuel + 1) d nm args st = .error msg) ∧
    (ethImportDescriptor b).module = "ethereum" ∧
    (ethImportDescriptor b).externalName = b.name.drop 4 ∧
    (ethImportDescriptor b).paramTypes = b.parameters ∧
    (ethImportDescriptor b).returnType = b.returns.head? ∧
    (∀ w st2, visitFunctionCall (fuel + 1) d nm args st = .ok (w, st2) →
      (st.functionsToImport.lookup b.name = none →
        st2.functionsToImport.lookup b.name = some (ethImportDescriptor b)) ∧
      (∀ imp, st.functionsToImport.lookup b.name = some imp →
        st2.functionsToImport.lookup b.name = some imp)) ∧
    (∀ fuel2 d2 ast m, run fuel2 d2 ast = .ok m →
      (m.imports.map (fun imp => imp.internalName)).Nodup) := by
  refine ⟨?_, rfl, rfl, rfl, rfl, ?_, ?_⟩
  · intro hret
    have hh : visitFunctionCall (fuel + 1) d nm args st
        = .error "imported builtin with more than one return value" := by
      simp only [visitFunctionCall, hb, hp, if_true]
      rw [if_neg (by omega)]
    exact ⟨_, hh⟩
  · intro w st2 h
    simp only [visitFunctionCall, hb, hp, if_true] at h
    split at h
    · next hret =>
      split at h
      · cases h
      · next ws stA heq =>
        split at h
        · cases h
        · next w2 heq2 =>
          cases h
          have hext := (visit_extends fuel).2.2.2.1 d args _ (ws, st2) heq
          obtain ⟨⟨t, ht⟩, -, -⟩ := hext
          constructor
          · intro hnone
            have hsome : (st.functionsToImport.lookup b.name).isSome = false := by
              simp [hnone]
            rw [hsome] at ht
            simp only [Bool.false_eq_true, if_false] at ht
            rw [ht]
            rw [List.append_assoc]
            rw [lookup_append_right hnone]
            simp [List.lookup]
          · intro imp himp
            have hsome : (st.functionsToImport.lookup b.name).isSome = true := by
              simp [himp]
            rw [hsome] at ht
            simp only [if_true] at ht
            rw [ht]
            exact lookup_append_some himp
    · cases h
  · intro fuel2 d2 ast m h
    simp only [run] at h
    split at h
    · cases h
    · next fs stF heq =>
      cases h
      have hinv : ImportInv stF :=
        (runStatements_extends (r := (fs, stF)) heq).2.2 importInv_initial
      obtain ⟨hnd, hin⟩ := hinv
      simp only [List.map_map]
      have hmaps : stF.functionsToImport.map
          ((fun imp => imp.internalName) ∘ Prod.snd) = stF.functionsToImport.map Prod.fst :=
        List.map_congr_left (fun p hp2 => hin p hp2)
      rw [hmaps]
      exact hnd

/-- The transform state after the first call to `eth.getAddress` from
the initial state, used in the C3 witness. -/
def afterFirstEthCall : TState :=
  { localVariables := []
    breakContinueLabelNames := []
    functionBodyLabel := ""
    functionsToImport := [("eth.getAddress", ethImportDescriptor getAddressBuiltin)]
    globalVariables := []
    nameCounter := 0 }

/-- C3 witness: two successive calls to the concrete imported builtin
`eth.getAddress`. -/
theorem eth_import_registration_witness :
    (∃ w, visitFunctionCall 5 sampleDialect "eth.getAddress" [.literal 0 "0"] initialState
        = .ok (w, afterFirstEthCall)) ∧
    afterFirstEthCall.functionsToImport.lookup "eth.getAddress"
      = some (ethImportDescriptor getAddressBuiltin) ∧
    (∃ w2 st3, visitFunctionCall 5 sampleDialect "eth.getAddress" [.literal 1 "1"] afterFirstEthCall
        = .ok (w2, st3) ∧
      st3.functionsToImport.lookup "eth.getAddress"
        = some (ethImportDescriptor getAddressBuiltin)) := by
  refine ⟨⟨_, rfl⟩, ?_, ⟨_, _, rfl, ?_⟩⟩
  · exact ((eth_import_registration 4 sampleDialect "eth.getAddress" [.literal 0 "0"]
      initialState getAddressBuiltin rfl rfl).2.2.2.2.2.1 _ _ rfl).1 rfl
  · exact ((eth_import_registration 4 sampleDialect "eth.getAddress" [.literal 1 "1"]
      afterFirstEthCall getAddressBuiltin rfl rfl).2.2.2.2.2.1 _ _ rfl).2
      (ethImportDescriptor getAddressBuiltin) rfl

/-- C4: in the final module the import entries are emitted in the order
their builtin name was first encountered (the import map grows by
appending exactly at first encounter and is emitted as-is), and the
module-wide globals are emitted in allocation order (the global list
grows by appending and is emitted as-is). -/
theorem run_emission_order (fuel : Nat) (d : Dialect) (ast : List YulStatement)
    (m : WasmModule) (h : run fuel d ast = .ok m) :
    (∃ st2, runStatements fuel d ast initialState = .ok (m.functions, st2) ∧
      m.imports = st2.functionsToImport.map Prod.snd ∧
      m.globals = st2.globalVariables) ∧
    (∀ f2 d2 s st w st2, visitStmt f2 d2 s st = .ok (w, st2) →
      (∃ t, st2.functionsToImport = st.functionsToImport ++ t) ∧
      (∃ t, st2.globalVariables = st.globalVariables ++ t)) ∧
    (∀ f2 d2 nm2 ps rs bd st g st2,
      translateFunction f2 d2 nm2 ps rs bd st = .ok (g, st2) →
      (∃ t, st2.functionsToImport = st.functionsToImport ++ t) ∧
      (∃ t, st2.globalVariables = st.globalVariables ++ t)) := by
  refine ⟨?_, ?_, ?_⟩
  · simp only [run] at h
    split at h
    · cases h
    · next fs stF heq =>
      cases h
      exact ⟨stF, heq, rfl, rfl⟩
  · intro f2 d2 s st w st2 hv
    obtain ⟨hi, hg, -⟩ := (visit_extends f2).2.2.2.2.1 d2 s st (w, st2) hv
    exact ⟨hi, hg⟩
  · intro f2 d2 nm2 ps rs bd st g st2 ht
    obtain ⟨hi, hg, -⟩ := translateFunction_extends (r := (g, st2)) ht
    exact ⟨hi, hg⟩

/-- C4 witness: a two-function module where the second function calls an
imported builtin. -/
theorem run_emission_order_witness :
    ∃ m st2,
      run 6 sampleDialect
        [.functionDefinition "f" [] [] [],
         .functionDefinition "g" [] []
           [.expressionStatement (.functionCall "eth.getAddress" [.literal 0 "0"])]]
        = .ok m ∧
      runStatements 6 sampleDialect
        [.functionDefinition "f" [] [] [],
         .functionDefinition "g" [] []
           [.expressionStatement (.functionCall "eth.getAddress" [.literal 0 "0"])]]
        initialState = .ok (m.functions, st2) ∧
      m.imports = st2.functionsToImport.map Prod.snd ∧
      m.globals = st2.globalVariables := by
  obtain ⟨m, hm⟩ : ∃ m, run 6 sampleDialect
      [.functionDefinition "f" [] [] [],
       .functionDefinition "g" [] []
         [.expressionStatement (.functionCall "eth.getAddress" [.literal 0 "0"])]]
      = .ok m := ⟨_, rfl⟩
  obtain ⟨st2, h1, h2, h3⟩ := (run_emission_order 6 sampleDialect _ m hm).1
  exact ⟨m, st2, hm, h1, h2, h3⟩

/-- The conversion applied to one argument given its declared type. -/
def convOne (a : WasmExpr) (t : String) : WasmExpr :=
  if t = "i32" then WasmExpr.builtinCall "i32.wrap_i64" [a] else a

theorem injectArgs_ok : ∀ (args : List WasmExpr) (types : List String),
    args.length ≤ types.length →
    (∀ i, i < args.length →
      types.getD i "" = "i32" ∨ types.getD i "" = "i64" ∨ types.getD i "" = "") →
    injectTypeConversionIfNeededArgs args types
      = .ok (List.zipWith convOne args types) := by
  intro args
  induction args with
  | nil =>
    intro types hlen hgood
    simp [injectTypeConversionIfNeededArgs]
  | cons a rest ih =>
    intro types hlen hgood
    cases types with
    | nil => simp at hlen
    | cons t ts =>
      have h0 := hgood 0 (by simp)
      simp only [List.getD_cons_zero] at h0
      have hrec := ih ts (by simpa using hlen)
        (fun i hi => by simpa using hgood (i + 1) (by simpa using hi))
      rcases h0 with h0 | h0 | h0
      · simp only [injectTypeConversionIfNeededArgs, h0, if_true, hrec,
          List.zipWith_cons_cons, convOne]
      · rw [show injectTypeConversionIfNeededArgs (a :: rest) (t :: ts)
            = match injectTypeConversionIfNeededArgs rest ts with
              | .ok tail => .ok (a :: tail)
              | .error e => .error e from by
          simp only [injectTypeConversionIfNeededArgs, h0]
          rw [if_neg (by simp), if_pos (by simp)]]
        rw [hrec]
        simp [List.zipWith_cons_cons, convOne, h0]
      · rw [show injectTypeConversionIfNeededArgs (a :: rest) (t :: ts)
            = match injectTypeConversionIfNeededArgs rest ts with
              | .ok tail => .ok (a :: tail)
              | .error e => .error e from by
          simp only [injectTypeConversionIfNeededArgs, h0]
          rw [if_neg (by simp), if_pos (by simp)]]
        rw [hrec]
        simp [List.zipWith_cons_cons, convOne, h0]

theorem injectArgs_err : ∀ (args : List WasmExpr) (types : List String) (i : Nat),
    i < args.length → i < types.length →
    types.getD i "" ≠ "i32" → types.getD i "" ≠ "i64" → types.getD i "" ≠ "" →
    ∃ msg, injectTypeConversionIfNeededArgs args types = .error msg := by
  intro args
  induction args with
  | nil =>
    intro types i hi
    simp at hi
  | cons a rest ih =>
    intro types i hi hj h32 h64 hemp
    cases types with
    | nil => simp at hj
    | cons t ts =>
      cases i with
      | zero =>
        simp only [List.getD_cons_zero] at h32 h64 hemp
        refine ⟨"Unknown type " ++ t, ?_⟩
        simp only [injectTypeConversionIfNeededArgs, h32, if_false]
        rw [if_neg (by simp [hemp, h64])]
      | succ i =>
        simp only [List.getD_cons_succ] at h32 h64 hemp
        obtain ⟨msg, hmsg⟩ := ih ts i (by simpa using hi) (by simpa using hj) h32 h64 hemp
        by_cases ht : t = "i32"
        · exact ⟨msg, by simp only [injectTypeConversionIfNeededArgs, ht, if_true, hmsg]⟩
        · by_cases ht2 : t = "" ∨ t = "i64"
          · refine ⟨msg, ?_⟩
            simp only [injectTypeConversionIfNeededArgs, ht, if_false]
            rw [if_pos ht2, hmsg]
          · refine ⟨"Unknown type " ++ t, ?_⟩
            simp only [injectTypeConversionIfNeededArgs, ht, if_false]
            rw [if_neg ht2]

theorem convertArgs_ok : ∀ (args : List WasmExpr) (types : List String),
    args.length ≤ types.length →
    (∀ i, i < args.length → types.getD i "" = "i32" ∨ types.getD i "" = "i64") →
    injectTypeConversionIfNeededCall.convertArgs args types
      = .ok (List.zipWith convOne args types) := by
  intro args
  induction args with
  | nil =>
    intro types hlen hgood
    simp [injectTypeConversionIfNeededCall.convertArgs]
  | cons a rest ih =>
    intro types hlen hgood
    cases types with
    | nil => simp at hlen
    | cons t ts =>
      have h0 := hgood 0 (by simp)
      simp only [List.getD_cons_zero] at h0
      have hrec := ih ts (by simpa using hlen)
        (fun i hi => by simpa using hgood (i + 1) (by simpa using hi))
      rcases h0 with h0 | h0
      · simp only [injectTypeConversionIfNeededCall.convertArgs, h0, if_true, hrec,
          List.zipWith_cons_cons, convOne]
      · rw [show injectTypeConversionIfNeededCall.convertArgs (a :: rest) (t :: ts)
            = match injectTypeConversionIfNeededCall.convertArgs rest ts with
              | .ok tail => .ok (a :: tail)
              | .error e => .error e from by
          simp only [injectTypeConversionIfNeededCall.convertArgs, h0]
          simp]
        rw [hrec]
        simp [List.zipWith_cons_cons, convOne, h0]

theorem convertArgs_err : ∀ (args : List WasmExpr) (types : List String) (i : Nat),
    i < args.length → i < types.length →
    types.getD i "" ≠ "i32" → types.getD i "" ≠ "i64" →
    ∃ msg, injectTypeConversionIfNeededCall.convertArgs args types = .error msg := by
  intro args
  induction args with
  | nil =>
    intro types i hi
    simp at hi
  | cons a rest ih =>
    intro types i hi hj h32 h64
    cases types with
    | nil => simp at hj
    | cons t ts =>
      cases i with
      | zero =>
        simp only [List.getD_cons_zero] at h32 h64
        refine ⟨"Unknown type " ++ t, ?_⟩
        simp only [injectTypeConversionIfNeededCall.convertArgs, h32, if_false]
        rw [if_neg h64]
      | succ i =>
        simp only [List.getD_cons_succ] at h32 h64
        obtain ⟨msg, hmsg⟩ := ih ts i (by simpa using hi) (by simpa using hj) h32 h64
        by_cases ht : t = "i32"
        · exact ⟨msg, by
            simp only [injectTypeConversionIfNeededCall.convertArgs, ht, if_true, hmsg]⟩
        · by_cases ht2 : t = "i64"
          · refine ⟨msg, ?_⟩
            simp only [injectTypeConversionIfNeededCall.convertArgs, ht, if_false]
            rw [if_pos ht2, hmsg]
          · refine ⟨"Unknown type " ++ t, ?_⟩
            simp only [injectTypeConversionIfNeededCall.convertArgs, ht, if_false]
            rw [if_neg ht2]

/-- C8: for a builtin or import-flagged call, every argument whose
declared (or recorded) parameter type is `"i32"` is wrapped in an
`i32.wrap_i64` narrowing; a declared parameter type other than `"i32"`,
`"i64"` or untyped (recorded: other than `"i32"`/`"i64"`) is fatal; a
declared (or recorded) single return type that is present and differs
from `"i64"` must be `"i32"`, in which case the whole call is wrapped in
`i64.extend_i32_u`, any other return type being fatal. -/
theorem type_conversion_correct (fuel : Nat) (d : Dialect) :
    (∀ args types, args.length ≤ types.length →
      (∀ i, i < args.length →
        types.getD i "" = "i32" ∨ types.getD i "" = "i64" ∨ types.getD i "" = "") →
      injectTypeConversionIfNeededArgs args types
        = .ok (List.zipWith convOne args types)) ∧
    (∀ args types i, i < args.length → i < types.length →
      types.getD i "" ≠ "i32" → types.getD i "" ≠ "i64" → types.getD i "" ≠ "" →
      ∃ msg, injectTypeConversionIfNeededArgs args types = .error msg) ∧
    (∀ st nm args imp, st.functionsToImport.lookup nm = some imp →
      args.length ≤ imp.paramTypes.length →
      (∀ i, i < args.length →
        imp.paramTypes.getD i "" = "i32" ∨ imp.paramTypes.getD i "" = "i64") →
      injectTypeConversionIfNeededCall st nm args =
        (match imp.returnType with
         | none => .ok (.functionCall nm (List.zipWith convOne args imp.paramTypes))
         | some rt =>
           if rt = "i64" then .ok (.functionCall nm (List.zipWith convOne args imp.paramTypes))
           else if rt = "i32" then
             .ok (.builtinCall "i64.extend_i32_u"
               [.functionCall nm (List.zipWith convOne args imp.paramTypes)])
           else .error ("Invalid type " ++ rt))) ∧
    (∀ st nm args imp i, st.functionsToImport.lookup nm = some imp →
      i < args.length → i < imp.paramTypes.length →
      imp.paramTypes.getD i "" ≠ "i32" → imp.paramTypes.getD i "" ≠ "i64" →
      ∃ msg, injectTypeConversionIfNeededCall st nm args = .error msg) ∧
    (∀ nm args st b wargs cargs stA, d nm = some b → nm.take 4 ≠ "eth." →
      (b.literalArguments.getD []).contains true = false →
      visitExprs fuel d args st = .ok (wargs, stA) →
      injectTypeConversionIfNeededArgs wargs b.parameters = .ok cargs →
      ((b.returns.head? = none ∨ b.returns.head? = some "" ∨ b.returns.head? = some "i64") →
        visitFunctionCall (fuel + 1) d nm args st = .ok (.builtinCall nm cargs, stA)) ∧
      (b.returns.head? = some "i32" →
        visitFunctionCall (fuel + 1) d nm args st
          = .ok (.builtinCall "i64.extend_i32_u" [.builtinCall nm cargs], stA)) ∧
      (∀ rt, b.returns.head? = some rt → rt ≠ "" → rt ≠ "i64" → rt ≠ "i32" →
        visitFunctionCall (fuel + 1) d nm args st = .error ("Invalid type " ++ rt))) := by
  refine ⟨injectArgs_ok, injectArgs_err, ?_, ?_, ?_⟩
  · intro st nm args imp hlook hlen hgood
    simp only [injectTypeConversionIfNeededCall, hlook]
    rw [convertArgs_ok args imp.paramTypes hlen hgood]
    cases imp.returnType <;> rfl
  · intro st nm args imp i hlook hi hj h32 h64
    obtain ⟨msg, hmsg⟩ := convertArgs_err args imp.paramTypes i hi hj h32 h64
    refine ⟨msg, ?_⟩
    simp only [injectTypeConversionIfNeededCall, hlook, hmsg]
  · intro nm args st b wargs cargs stA hb hp hlit heq heq2
    have hbase : ∀ k : Except String (WasmExpr × TState),
        (match b.returns.head? with
         | none => Except.ok (WasmExpr.builtinCall nm cargs, stA)
         | some r =>
           if r = "" then Except.ok (WasmExpr.builtinCall nm cargs, stA)
           else if r = "i64" then Except.ok (WasmExpr.builtinCall nm cargs, stA)
           else if r = "i32" then
             Except.ok (WasmExpr.builtinCall "i64.extend_i32_u"
               [WasmExpr.builtinCall nm cargs], stA)
           else Except.error ("Invalid type " ++ r)) = k →
        visitFunctionCall (fuel + 1) d nm args st = k := by
      intro k hk
      simp only [visitFunctionCall, hb, hp, if_false, hlit, Bool.false_eq_true, heq, heq2]
      exact hk
    refine ⟨?_, ?_, ?_⟩
    · rintro (hr | hr | hr) <;> exact hbase _ (by simp [hr])
    · intro hr
      exact hbase _ (by simp [hr])
    · intro rt hr hne hn64 hn32
      refine hbase _ ?_
      simp only [hr]
      rw [if_neg hne, if_neg hn64, if_neg hn32]

/-- C8 witness: concrete conversions — an `"i32"` parameter is wrapped,
an unknown parameter type is fatal, and an `"i32"` import return type
widens the call. -/
theorem type_conversion_correct_witness :
    injectTypeConversionIfNeededArgs [.literal 1, .literal 2] ["i32", "i64"]
      = .ok (List.zipWith convOne [.literal 1, .literal 2] ["i32", "i64"]) ∧
    (∃ msg, injectTypeConversionIfNeededArgs [.literal 1] ["f64"] = .error msg) ∧
    injectTypeConversionIfNeededCall afterFirstEthCall "eth.getAddress" [.literal 1]
      = .ok (.functionCall "eth.getAddress"
          (List.zipWith convOne [.literal 1] ["i32"])) := by
  refine ⟨?_, ?_, ?_⟩
  · exact (type_conversion_correct 0 emptyDialect).1 [.literal 1, .literal 2]
      ["i32", "i64"] (by decide) (by decide)
  · exact (type_conversion_correct 0 emptyDialect).2.1 [.literal 1] ["f64"] 0
      (by decide) (by decide) (by decide) (by decide) (by decide)
  · exact (type_conversion_correct 0 emptyDialect).2.2.1 afterFirstEthCall
      "eth.getAddress" [.literal 1] (ethImportDescriptor getAddressBuiltin)
      rfl (by decide) (by decide)

/-- C10: a builtin call on the literal-arguments path passes each flagged
argument through as a raw-text string literal (a flagged non-literal is
fatal), translates the remaining arguments normally, and applies no type
coercion whatsoever: the emitted BuiltinCall is exactly the builtin name
applied to those arguments, with no argument narrowing and no return
widening, regardless of the builtin's declared types. -/
theorem literal_arguments_no_coercion (fuel : Nat) (d : Dialect) :
    (∀ nm args st b flags, d nm = some b → nm.take 4 ≠ "eth." →
      b.literalArguments = some flags → flags.contains true = true →
      visitFunctionCall (fuel + 1) d nm args st =
        (match visitLiteralArguments fuel d flags args st with
         | .error e => .error e
         | .ok (ls, st2) => .ok (.builtinCall nm ls, st2))) ∧
    (∀ flags v raw rest st, flags.headD false = true →
      visitLiteralArguments (fuel + 1) d flags (.literal v raw :: rest) st =
        (match visitLiteralArguments fuel d flags.tail rest st with
         | .error e => .error e
         | .ok (tail, st2) => .ok (.stringLiteral raw :: tail, st2))) ∧
    (∀ flags nm2 cargs rest st, flags.headD false = true →
      visitLiteralArguments (fuel + 1) d flags (.functionCall nm2 cargs :: rest) st
        = .error "expected Literal argument") ∧
    (∀ flags a rest st w st2, flags.headD false = false →
      visitExpr fuel d a st = .ok (w, st2) →
      visitLiteralArguments (fuel + 1) d flags (a :: rest) st =
        (match visitLiteralArguments fuel d flags.tail rest st2 with
         | .error e => .error e
         | .ok (tail, st3) => .ok (w :: tail, st3))) := by
  refine ⟨?_, ?_, ?_, ?_⟩
  · intro nm args st b flags hb hp hf ht
    simp only [visitFunctionCall, hb, hp, if_false, hf, Option.getD_some, ht, if_true]
  · intro flags v raw rest st hflag
    simp only [visitLiteralArguments, hflag, if_true]
  · intro flags nm2 cargs rest st hflag
    simp only [visitLiteralArguments, hflag, if_true]
  · intro flags a rest st w st2 hflag hv
    simp only [visitLiteralArguments, hflag, Bool.false_eq_true, if_false, hv]

/-- C10 witness: the concrete literal-arguments builtin `dataoffset`
called on the literal `5` with raw text `"abc"`. -/
theorem literal_arguments_no_coercion_witness :
    visitFunctionCall 3 sampleDialect "dataoffset" [.literal 5 "abc"] initialState =
      (match visitLiteralArguments 2 sampleDialect [true] [.literal 5 "abc"] initialState with
       | .error e => .error e
       | .ok (ls, st2) => .ok (.builtinCall "dataoffset" ls, st2)) ∧
    visitFunctionCall 3 sampleDialect "dataoffset" [.literal 5 "abc"] initialState
      = .ok (.builtinCall "dataoffset" [.stringLiteral "abc"], initialState) := by
  refine ⟨?_, by rfl⟩
  exact (literal_arguments_no_coercion 2 sampleDialect).1 "dataoffset" [.literal 5 "abc"]
    initialState dataoffsetBuiltin [true] rfl (by decide) rfl rfl

end WasmCodeTransform
